import Mathlib

/-!
Verification of the proof-of-work difficulty logic of `src/pow.cpp`.

The 256-bit arithmetic type and the compact-target codec
(`arith_uint256::SetCompact` / `GetCompact`) live outside the repository
sources, so they are modelled from the specification (sections 3 and 4.1):
256-bit values are natural numbers reduced modulo `2 ^ 256`, the compact
codec is the byte-exponent / 3-byte-mantissa scheme with sign bit 23,
overflow when the decoded value needs bits beyond the 256-bit width, and
encode chooses the minimal exponent whose mantissa fits in three bytes
with the sign bit clear (low-order bits are dropped, never rounded up).

The header-chain accessor of the specification (section 6) is modelled as
a height-indexed view: `GetAncestor i` of the chain index is the block at
height `i`, with its timestamp and compact bits.  All `int64_t`
arithmetic of the source is carried out on `Int`, using `Int.tdiv` and
`Int.tmod` for the C++ truncating division and remainder; heights are
nonnegative and carried as `Nat`.
-/

set_option maxRecDepth 40000

namespace Atcoin

/-- Modulus of the 256-bit fixed-width unsigned integers. -/
def W : Nat := 2 ^ 256

/-- Fuel-driven helper computing the binary length of a natural number. -/
def bitLenAux : Nat → Nat → Nat
  | 0, _ => 0
  | fuel + 1, n => if n = 0 then 0 else bitLenAux fuel (n / 2) + 1

/-- Binary length (position of the highest set bit plus one, 0 for 0);
this is the `bits()` accessor of the 256-bit integer model. -/
def bitLen (n : Nat) : Nat := bitLenAux (n + 1) n

/-- Modelled from the spec: compact decoding (`arith_uint256::SetCompact`,
not in the sources).  Unpack the exponent (top byte) and the mantissa
(low 3 bytes below the sign bit); for exponent at most 3 the mantissa is
right-shifted, otherwise left-shifted by `8 * (exponent - 3)` into the
256-bit field (reduced modulo the width). -/
def setCompactVal (nCompact : Nat) : Nat :=
  let nSize := nCompact / 2 ^ 24
  let nWord := nCompact % 2 ^ 23
  if nSize ≤ 3 then nWord / 2 ^ (8 * (3 - nSize))
  else nWord * 2 ^ (8 * (nSize - 3)) % W

/-- Modelled from the spec: the negative flag of compact decoding; the
sign bit is bit 23 of the mantissa region. -/
def setCompactNegative (nCompact : Nat) : Bool :=
  decide (nCompact / 2 ^ 23 % 2 = 1)

/-- Modelled from the spec: the overflow flag of compact decoding, set
when the mantissa is nonzero and the left shift would need bits beyond
the 256-bit width. -/
def setCompactOverflow (nCompact : Nat) : Bool :=
  let nSize := nCompact / 2 ^ 24
  let nWord := nCompact % 2 ^ 23
  decide (nWord ≠ 0 ∧ 3 < nSize ∧ W ≤ nWord * 2 ^ (8 * (nSize - 3)))

/-- Modelled from the spec: compact encoding (`arith_uint256::GetCompact`,
not in the sources).  Choose the minimal exponent such that the mantissa
fits in three bytes; when the top mantissa bit (the sign position) is
set, shift one more byte and bump the exponent, so the sign bit of the
result is always clear.  Low-order bits are dropped, never rounded up. -/
def GetCompact (v : Nat) : Nat :=
  let nSize := (bitLen v + 7) / 8
  let c := if nSize ≤ 3 then v * 2 ^ (8 * (3 - nSize)) else v / 2 ^ (8 * (nSize - 3))
  if 2 ^ 23 ≤ c then c / 2 ^ 8 + (nSize + 1) * 2 ^ 24 else c + nSize * 2 ^ 24

/-- Header-chain view: tip height plus timestamp and compact bits of the
block at each height (the ancestor-by-height accessor contract). -/
structure Chain where
  height : Nat
  time : Nat → Int
  bits : Nat → Nat

/-- Consensus parameter record consumed by the difficulty functions. -/
structure ConsensusParams where
  powLimit : Nat
  nPowTargetSpacing : Int
  nLWMAAveragingWindow : Int
  switchLWMAblock : Int
  nPowTargetTimespan : Int
  fPowAllowMinDifficultyBlocks : Bool
  fPowNoRetargeting : Bool
  enforce_BIP94 : Bool

/-- Modelled from the spec: the legacy adjustment interval is derived
from the target timespan and spacing (`Consensus::Params`, not in the
sources). -/
def DifficultyAdjustmentInterval (params : ConsensusParams) : Int :=
  params.nPowTargetTimespan.tdiv params.nPowTargetSpacing

/-- Effective timestamp of a window block (pow.cpp lines 58-60): the raw
timestamp when it strictly exceeds the running previous effective
timestamp, otherwise the previous effective timestamp plus one. -/
def lwmaEffectiveTimestamp (rawTimestamp previousTimestamp : Int) : Int :=
  if rawTimestamp > previousTimestamp then rawTimestamp else previousTimestamp + 1

/-- Solve-time clamp of the moving-average loop (pow.cpp lines 62-70). -/
def clampSolveTime (T solveTime : Int) : Int :=
  if solveTime < T.tdiv 6 then T.tdiv 6
  else if solveTime > 6 * T then 6 * T
  else solveTime

/-- Accumulation loop of the weighted moving average (pow.cpp lines
53-78), walking `count` blocks from height `i` upward: arguments are the
loop height, the remaining count, the running previous effective
timestamp, the weight, and the 256-bit sum. -/
def lwmaAccum (chain : Chain) (T : Int) : Nat → Nat → Int → Int → Nat → Nat
  | _, 0, _, _, sumTarget => sumTarget
  | i, count + 1, previousTimestamp, weight, sumTarget =>
    let thisTimestamp := lwmaEffectiveTimestamp (chain.time i) previousTimestamp
    let solveTime := clampSolveTime T (thisTimestamp - previousTimestamp)
    let target := setCompactVal (chain.bits i)
    lwmaAccum chain T (i + 1) count thisTimestamp (weight + 1)
      ((sumTarget + target * solveTime.toNat % W * weight.toNat % W) % W)

/-- Normalizing constant `k = N * (N + 1) * T / 2` (pow.cpp line 46). -/
def lwmaK (params : ConsensusParams) : Int :=
  (params.nLWMAAveragingWindow * (params.nLWMAAveragingWindow + 1) *
    params.nPowTargetSpacing).tdiv 2

/-- Height of the oldest block of the averaging window,
`height - N + 1` (pow.cpp line 48). -/
def lwmaStartHeight (chain : Chain) (params : ConsensusParams) : Nat :=
  chain.height + 1 - params.nLWMAAveragingWindow.toNat

/-- Weighted sum over the `N` most recent blocks (pow.cpp lines 48-78);
the previous effective timestamp starts at the timestamp of the oldest
window block, weights run from 1. -/
def lwmaSumTarget (chain : Chain) (params : ConsensusParams) : Nat :=
  lwmaAccum chain params.nPowTargetSpacing (lwmaStartHeight chain params)
    params.nLWMAAveragingWindow.toNat (chain.time (lwmaStartHeight chain params)) 1 0

/-- Backward walk of the testnet min-difficulty rule (pow.cpp lines
109-113): starting from the given height, step to the parent while the
block has a parent, its height is not an adjustment boundary, and its
bits equal the limit bits; returns the stopping height. -/
def walkBack (chain : Chain) (interval : Int) (limitBits : Nat) : Nat → Nat
  | 0 => 0
  | h + 1 =>
    if ((h : Int) + 1).tmod interval ≠ 0 ∧ chain.bits (h + 1) = limitBits
    then walkBack chain interval limitBits h
    else h + 1

/-- Base target of the legacy retarget (pow.cpp lines 144-154): the
first block of the difficulty period under `enforce_BIP94`, otherwise
the previous block. -/
def legacyBase (chain : Chain) (params : ConsensusParams) : Nat :=
  if params.enforce_BIP94 then
    setCompactVal (chain.bits (chain.height - ((DifficultyAdjustmentInterval params).toNat - 1)))
  else setCompactVal (chain.bits chain.height)

/-- Legacy periodic retarget (pow.cpp lines 128-164,
`CalculateNextWorkRequired`).  The division by the target timespan and
the scalar multiplication are the 256-bit operations; the timespan
parameters are positive in the supported domain, so the `Int.toNat`
conversions are exact there. -/
def CalculateNextWorkRequired (chain : Chain) (nFirstBlockTime : Int)
    (params : ConsensusParams) : Nat :=
  if params.fPowNoRetargeting then chain.bits chain.height
  else
    let a0 := chain.time chain.height - nFirstBlockTime
    let a1 := if a0 < params.nPowTargetTimespan.tdiv 4 then params.nPowTargetTimespan.tdiv 4 else a0
    let nActualTimespan := if a1 > params.nPowTargetTimespan * 4 then params.nPowTargetTimespan * 4 else a1
    let bnNew := legacyBase chain params * nActualTimespan.toNat % W / params.nPowTargetTimespan.toNat
    GetCompact (if bnNew > params.powLimit then params.powLimit else bnNew)

/-- Legacy entry point (pow.cpp lines 93-126,
`BitcoinGetNextWorkRequired`). -/
def BitcoinGetNextWorkRequired (chain : Chain) (pblockTime : Int)
    (params : ConsensusParams) : Nat :=
  let nProofOfWorkLimit := GetCompact params.powLimit
  if ((chain.height : Int) + 1).tmod (DifficultyAdjustmentInterval params) ≠ 0 then
    if params.fPowAllowMinDifficultyBlocks then
      if pblockTime > chain.time chain.height + params.nPowTargetSpacing * 2 then
        nProofOfWorkLimit
      else
        chain.bits (walkBack chain (DifficultyAdjustmentInterval params)
          nProofOfWorkLimit chain.height)
    else chain.bits chain.height
  else
    let nHeightFirst := chain.height - ((DifficultyAdjustmentInterval params).toNat - 1)
    CalculateNextWorkRequired chain (chain.time nHeightFirst) params

/-- Top-level difficulty entry point (pow.cpp lines 15-91,
`GetNextWorkRequired`): bootstrap guard, per-era dispatch, and the
weighted moving-average retarget with its ratchet clamps. -/
def GetNextWorkRequired (chain : Chain) (pblockTime : Int)
    (params : ConsensusParams) : Nat :=
  if (chain.height : Int) + 1 < params.nLWMAAveragingWindow then GetCompact params.powLimit
  else if (chain.height : Int) < params.switchLWMAblock then
    BitcoinGetNextWorkRequired chain pblockTime params
  else
    let prevTarget := setCompactVal (chain.bits chain.height)
    let easingTarget := prevTarget * 6 % W / 5
    let tighteningTarget := prevTarget * 2 % W / 3
    let nextTarget := lwmaSumTarget chain params / (lwmaK params).toNat
    GetCompact (if nextTarget > params.powLimit then params.powLimit
      else if nextTarget > easingTarget then easingTarget
      else if nextTarget < tighteningTarget then tighteningTarget
      else nextTarget)

/-- Transition validator (pow.cpp lines 168-215,
`PermittedDifficultyTransition`). -/
def PermittedDifficultyTransition (params : ConsensusParams) (height : Int)
    (old_nbits new_nbits : Nat) : Bool :=
  if params.fPowAllowMinDifficultyBlocks then true
  else if height.tmod (DifficultyAdjustmentInterval params) = 0 then
    let observed_new_target := setCompactVal new_nbits
    let largest0 := setCompactVal old_nbits * (params.nPowTargetTimespan * 4).toNat % W /
      params.nPowTargetTimespan.toNat
    let largest_difficulty_target := if largest0 > params.powLimit then params.powLimit else largest0
    let maximum_new_target := setCompactVal (GetCompact largest_difficulty_target)
    if maximum_new_target < observed_new_target then false
    else
      let smallest0 := setCompactVal old_nbits * (params.nPowTargetTimespan.tdiv 4).toNat % W /
        params.nPowTargetTimespan.toNat
      let smallest_difficulty_target := if smallest0 > params.powLimit then params.powLimit else smallest0
      let minimum_new_target := setCompactVal (GetCompact smallest_difficulty_target)
      if minimum_new_target > observed_new_target then false else true
  else if old_nbits ≠ new_nbits then false else true

/-- Target derivation of the verifier (pow.cpp lines 224-236,
`DeriveTarget`). -/
def DeriveTarget (nBits : Nat) (pow_limit : Nat) : Option Nat :=
  let bnTarget := setCompactVal nBits
  if setCompactNegative nBits || bnTarget == 0 || setCompactOverflow nBits ||
      decide (bnTarget > pow_limit)
  then none
  else some bnTarget

/-- Hash-versus-target check (pow.cpp lines 238-248,
`CheckProofOfWorkImpl`). -/
def CheckProofOfWorkImpl (hash : Nat) (nBits : Nat) (params : ConsensusParams) : Bool :=
  match DeriveTarget nBits params.powLimit with
  | none => false
  | some bnTarget => if hash > bnTarget then false else true

/-- Proof-of-work check with the compile-time fuzzing bypass (pow.cpp
lines 219-222): under fuzzing the result only inspects the most
significant bit of hash byte 31; the 256-bit hash is stored little
endian, so byte 31 is the most significant byte of the value. -/
def CheckProofOfWork (gFuzzing : Bool) (hash : Nat) (nBits : Nat)
    (params : ConsensusParams) : Bool :=
  if gFuzzing then decide (hash / 2 ^ (8 * 31) % 2 ^ 8 / 2 ^ 7 % 2 = 0)
  else CheckProofOfWorkImpl hash nBits params

/-- Ratchet clamp of the moving-average retarget stated as the spec
describes it: the power-limit ceiling is checked first, then the easing
ceiling `prev * 6 / 5`, then the tightening floor `prev * 2 / 3`. -/
def lwmaClampSpec (powLimit prevTarget raw : Nat) : Nat :=
  if raw > powLimit then powLimit
  else if raw > prevTarget * 6 % W / 5 then prevTarget * 6 % W / 5
  else if raw < prevTarget * 2 % W / 3 then prevTarget * 2 % W / 3
  else raw

/-- Timespan clamp of the legacy retarget stated as the spec describes
it: clamp the actual timespan to `[timespan / 4, timespan * 4]`. -/
def clampTimespanSpec (params : ConsensusParams) (actual : Int) : Int :=
  min (params.nPowTargetTimespan * 4) (max (params.nPowTargetTimespan.tdiv 4) actual)

/-- Maximum permissible new target of the transition validator stated as
the spec describes it: scale the decoded old target by the largest legal
timespan ratio, clamp to the power limit, round-trip through the compact
codec. -/
def maximumNewTarget (params : ConsensusParams) (old_nbits : Nat) : Nat :=
  setCompactVal (GetCompact (min params.powLimit
    (setCompactVal old_nbits * (params.nPowTargetTimespan * 4).toNat % W /
      params.nPowTargetTimespan.toNat)))

/-- Minimum permissible new target of the transition validator stated as
the spec describes it: scale the decoded old target by the smallest
legal timespan ratio, clamp to the power limit, round-trip through the
compact codec. -/
def minimumNewTarget (params : ConsensusParams) (old_nbits : Nat) : Nat :=
  setCompactVal (GetCompact (min params.powLimit
    (setCompactVal old_nbits * (params.nPowTargetTimespan.tdiv 4).toNat % W /
      params.nPowTargetTimespan.toNat)))

/-- Number of low-order bits dropped by a compact encode/decode round
trip of a given value. -/
def rtShift (v : Nat) : Nat :=
  let nSize := (bitLen v + 7) / 8
  let c := if nSize ≤ 3 then v * 2 ^ (8 * (3 - nSize)) else v / 2 ^ (8 * (nSize - 3))
  8 * ((if 2 ^ 23 ≤ c then nSize + 1 else nSize) - 3)

/-- Mainnet-style power limit `0x00000000ffff0000...0000`. -/
def mainnetPowLimit : Nat := 0xffff * 2 ^ 208

/-- Bitcoin-mainnet-style legacy parameter set with the moving-average
switch far in the future. -/
def legacyParams : ConsensusParams :=
  { powLimit := mainnetPowLimit
    nPowTargetSpacing := 600
    nLWMAAveragingWindow := 9
    switchLWMAblock := 1000000
    nPowTargetTimespan := 1209600
    fPowAllowMinDifficultyBlocks := false
    fPowNoRetargeting := false
    enforce_BIP94 := false }

/-- Chain of 2016 blocks (tip height 2015) mined with constant spacing
of exactly the target spacing, at constant difficulty. -/
def exactSpacingChain : Chain :=
  { height := 2015
    time := fun h => 600 * h
    bits := fun _ => 0x1d00ffff }

/-- Parameter set with a tiny power limit (adjustment interval 4). -/
def smallLimitParams : ConsensusParams :=
  { powLimit := 1
    nPowTargetSpacing := 1
    nLWMAAveragingWindow := 9
    switchLWMAblock := 1000000
    nPowTargetTimespan := 4
    fPowAllowMinDifficultyBlocks := false
    fPowNoRetargeting := false
    enforce_BIP94 := false }

/-- Parameter set in the moving-average era (switch height 10). -/
def lwmaParams : ConsensusParams :=
  { powLimit := mainnetPowLimit
    nPowTargetSpacing := 90
    nLWMAAveragingWindow := 9
    switchLWMAblock := 10
    nPowTargetTimespan := 1209600
    fPowAllowMinDifficultyBlocks := false
    fPowNoRetargeting := false
    enforce_BIP94 := false }

/-- Chain in the moving-average era: tip height 19, constant spacing 90,
constant difficulty. -/
def lwmaChain : Chain :=
  { height := 19
    time := fun h => 90 * h
    bits := fun _ => 0x1d00ffff }

/-- Parameter set with adjustment interval 4 (timespan 2400, spacing
600) and window size 8, legacy era until height 100. -/
def intervalFourParams : ConsensusParams :=
  { powLimit := mainnetPowLimit
    nPowTargetSpacing := 600
    nLWMAAveragingWindow := 8
    switchLWMAblock := 100
    nPowTargetTimespan := 2400
    fPowAllowMinDifficultyBlocks := false
    fPowNoRetargeting := false
    enforce_BIP94 := false }

/-- Chain for `intervalFourParams`: tip height 7, constant spacing 800,
so the measured timespan over the interval equals the target timespan
`2400 = (4 - 1) * 800` exactly. -/
def intervalFourChain : Chain :=
  { height := 7
    time := fun h => 800 * h
    bits := fun _ => 0x1d00ffff }

/-- Parameter set with a one-day legacy target timespan. -/
def oneDayParams : ConsensusParams :=
  { powLimit := mainnetPowLimit
    nPowTargetSpacing := 600
    nLWMAAveragingWindow := 9
    switchLWMAblock := 1000000
    nPowTargetTimespan := 86400
    fPowAllowMinDifficultyBlocks := false
    fPowNoRetargeting := false
    enforce_BIP94 := false }

/-- Small chain with unit spacing and constant difficulty. -/
def unitSpacingChain : Chain :=
  { height := 5
    time := fun h => h
    bits := fun _ => 0x1d00ffff }

/-- Characterization of a failing target derivation: exactly the four
rejection conditions of `DeriveTarget`. -/
lemma deriveTarget_eq_none_iff (nBits pow_limit : Nat) :
    DeriveTarget nBits pow_limit = none ↔
      (setCompactNegative nBits = true ∨ setCompactVal nBits = 0 ∨
        setCompactOverflow nBits = true ∨ pow_limit < setCompactVal nBits) := by
  simp only [DeriveTarget]
  split <;> rename_i hguard
  · simp only [true_iff]
    simp only [Bool.or_eq_true, beq_iff_eq, decide_eq_true_eq, gt_iff_lt] at hguard
    tauto
  · simp only [reduceCtorEq, false_iff]
    simp only [Bool.or_eq_true, beq_iff_eq, decide_eq_true_eq, gt_iff_lt] at hguard
    tauto

/-- A successful target derivation returns the decoded compact value. -/
lemma deriveTarget_eq_some (nBits pow_limit bnTarget : Nat)
    (h : DeriveTarget nBits pow_limit = some bnTarget) :
    bnTarget = setCompactVal nBits := by
  simp only [DeriveTarget] at h
  split at h
  · exact absurd h (by simp)
  · exact (Option.some_injective _ h).symm

/-- Claim C9: whenever the tip height `h` satisfies `h + 1 < N` (the
averaging window size), `GetNextWorkRequired` returns the compact
encoding of the power limit, regardless of the era, the candidate block,
and every flag: the bootstrap guard runs before the per-era dispatch. -/
theorem getNextWorkRequired_bootstrap (chain : Chain) (pblockTime : Int)
    (params : ConsensusParams)
    (h : (chain.height : Int) + 1 < params.nLWMAAveragingWindow) :
    GetNextWorkRequired chain pblockTime params = GetCompact params.powLimit := by
  unfold GetNextWorkRequired
  rw [if_pos h]

/-- Witness for claim C9 at a concrete legacy-era chain of height 3 with
every flag clear and window size 9. -/
theorem getNextWorkRequired_bootstrap_witness :
    GetNextWorkRequired ⟨3, fun h => 600 * h, fun _ => 0x1d00ffff⟩ 0 legacyParams
      = GetCompact mainnetPowLimit :=
  getNextWorkRequired_bootstrap _ 0 _ (by decide)

/-- Claim C10: under the fuzzing switch, `CheckProofOfWork` succeeds
exactly when the most significant bit of hash byte 31 (bit 255 of the
hash value) is clear, and the result depends on nothing but that bit:
two calls whose hashes agree on bit 255 give equal results for any
`nBits` and parameters. -/
theorem checkProofOfWork_fuzzing :
    (∀ (hash nBits : Nat) (params : ConsensusParams), hash < 2 ^ 256 →
      (CheckProofOfWork true hash nBits params = true ↔ hash < 2 ^ 255))
    ∧ (∀ (h1 h2 b1 b2 : Nat) (p1 p2 : ConsensusParams),
        h1 / 2 ^ 255 % 2 = h2 / 2 ^ 255 % 2 →
        CheckProofOfWork true h1 b1 p1 = CheckProofOfWork true h2 b2 p2) := by
  have key : ∀ hash : Nat,
      CheckProofOfWork true hash 0 smallLimitParams = decide (hash / 2 ^ 255 % 2 = 0) := by
    intro hash
    show decide (hash / 2 ^ (8 * 31) % 2 ^ 8 / 2 ^ 7 % 2 = 0) = _
    congr 1
    have h1 : hash / 2 ^ (8 * 31) % 2 ^ 8 / 2 ^ 7 = hash / 2 ^ (8 * 31) / 2 ^ 7 % 2 := by
      omega
    rw [h1, Nat.div_div_eq_div_mul]
    norm_num
  have indep : ∀ (hash b : Nat) (p : ConsensusParams),
      CheckProofOfWork true hash b p = CheckProofOfWork true hash 0 smallLimitParams := by
    intro hash b p
    rfl
  constructor
  · intro hash nBits params hlt
    rw [indep hash nBits params, key hash, decide_eq_true_eq]
    rcases Nat.lt_or_ge hash (2 ^ 255) with hsmall | hbig
    · rw [Nat.div_eq_of_lt hsmall]
      exact iff_of_true rfl hsmall
    · have hone : 1 ≤ hash / 2 ^ 255 := (Nat.one_le_div_iff (by positivity)).mpr hbig
      have hq : hash / 2 ^ 255 < 2 := by
        apply Nat.div_lt_of_lt_mul
        calc hash < 2 ^ 256 := hlt
        _ = 2 ^ 255 * 2 := by ring
      have hq1 : hash / 2 ^ 255 = 1 := by omega
      rw [hq1]
      exact iff_of_false (by norm_num) (by omega)
  · intro h1 h2 b1 b2 p1 p2 heq
    rw [indep h1 b1 p1, indep h2 b2 p2, key h1, key h2, heq]

/-- Witness for claim C10 at concrete hashes on the two sides of the
bit-255 boundary. -/
theorem checkProofOfWork_fuzzing_witness :
    (CheckProofOfWork true 5 7 legacyParams = true ↔ (5 : Nat) < 2 ^ 255)
    ∧ CheckProofOfWork true 5 7 legacyParams = CheckProofOfWork true 5 0 smallLimitParams :=
  ⟨checkProofOfWork_fuzzing.1 5 7 legacyParams (by norm_num),
   checkProofOfWork_fuzzing.2 5 5 7 0 legacyParams smallLimitParams rfl⟩

/-- Claim C1: in the non-fuzzing build, the proof-of-work check fails
whenever the bits decode as negative, zero, overflowed, or above the
power limit; otherwise it succeeds exactly when `hash` is at most the
derived target under full-width unsigned comparison, so a hash equal to
the target passes and the successor of the target fails. -/
theorem checkProofOfWork_verifier (nBits : Nat) (params : ConsensusParams) :
    (∀ hash : Nat,
        (setCompactNegative nBits = true ∨ setCompactVal nBits = 0 ∨
          setCompactOverflow nBits = true ∨ params.powLimit < setCompactVal nBits) →
        CheckProofOfWork false hash nBits params = false)
    ∧ (∀ hash bnTarget : Nat, DeriveTarget nBits params.powLimit = some bnTarget →
        (CheckProofOfWork false hash nBits params = true ↔ hash ≤ bnTarget))
    ∧ (∀ bnTarget : Nat, DeriveTarget nBits params.powLimit = some bnTarget →
        CheckProofOfWork false bnTarget nBits params = true
          ∧ CheckProofOfWork false (bnTarget + 1) nBits params = false) := by
  have himpl : ∀ hash : Nat,
      CheckProofOfWork false hash nBits params = CheckProofOfWorkImpl hash nBits params := by
    intro hash; rfl
  have hiff : ∀ hash bnTarget : Nat, DeriveTarget nBits params.powLimit = some bnTarget →
      (CheckProofOfWork false hash nBits params = true ↔ hash ≤ bnTarget) := by
    intro hash bnTarget hsome
    have hstep : CheckProofOfWorkImpl hash nBits params
        = if hash > bnTarget then false else true := by
      unfold CheckProofOfWorkImpl
      rw [hsome]
    rw [himpl, hstep]
    split <;> rename_i hcmp
    · simp only [Bool.false_eq_true, false_iff]
      omega
    · simp only [true_iff]
      omega
  refine ⟨?_, hiff, ?_⟩
  · intro hash hbad
    have hstep : CheckProofOfWorkImpl hash nBits params = false := by
      unfold CheckProofOfWorkImpl
      rw [(deriveTarget_eq_none_iff nBits params.powLimit).mpr hbad]
    rw [himpl, hstep]
  · intro bnTarget hsome
    exact ⟨(hiff bnTarget bnTarget hsome).mpr le_rfl,
      by
        rcases Bool.eq_false_or_eq_true (CheckProofOfWork false (bnTarget + 1) nBits params)
          with ht | hf
        · exact absurd ((hiff (bnTarget + 1) bnTarget hsome).mp ht) (by omega)
        · exact hf⟩

/-- Witness for claim C1 at the mainnet genesis bits: the decoded target
itself passes the check and its successor fails. -/
theorem checkProofOfWork_verifier_witness :
    CheckProofOfWork false (0xffff * 2 ^ 208) 0x1d00ffff legacyParams = true
      ∧ CheckProofOfWork false (0xffff * 2 ^ 208 + 1) 0x1d00ffff legacyParams = false :=
  (checkProofOfWork_verifier 0x1d00ffff legacyParams).2.2 (0xffff * 2 ^ 208) (by decide)

/-- Claim C6: a window block whose raw timestamp does not strictly
exceed the running previous effective timestamp gets effective timestamp
`previous + 1`, so its pre-clamp solve time is exactly 1; one step of
the averaging loop on such a block therefore accumulates the target
weighted by the clamped solve time of 1. -/
theorem lwmaMonotonicTimestamp (rawTimestamp previousTimestamp : Int)
    (hle : rawTimestamp ≤ previousTimestamp) :
    lwmaEffectiveTimestamp rawTimestamp previousTimestamp = previousTimestamp + 1
    ∧ lwmaEffectiveTimestamp rawTimestamp previousTimestamp - previousTimestamp = 1
    ∧ ∀ (chain : Chain) (T : Int) (i count : Nat) (weight : Int) (sumTarget : Nat),
        chain.time i = rawTimestamp →
        lwmaAccum chain T i (count + 1) previousTimestamp weight sumTarget
          = lwmaAccum chain T (i + 1) count (previousTimestamp + 1) (weight + 1)
            ((sumTarget + setCompactVal (chain.bits i) * (clampSolveTime T 1).toNat % W
              * weight.toNat % W) % W) := by
  have heff : lwmaEffectiveTimestamp rawTimestamp previousTimestamp = previousTimestamp + 1 := by
    unfold lwmaEffectiveTimestamp
    rw [if_neg (not_lt.mpr hle)]
  refine ⟨heff, by rw [heff]; ring, ?_⟩
  intro chain T i count weight sumTarget hraw
  show lwmaAccum chain T (i + 1) count
      (lwmaEffectiveTimestamp (chain.time i) previousTimestamp) (weight + 1) _ = _
  rw [hraw, heff]
  norm_num

/-- Witness for claim C6 at a repeated timestamp of 100. -/
theorem lwmaMonotonicTimestamp_witness :
    lwmaEffectiveTimestamp 100 100 = 100 + 1
    ∧ lwmaEffectiveTimestamp 100 100 - 100 = 1 :=
  ⟨(lwmaMonotonicTimestamp 100 100 le_rfl).1, (lwmaMonotonicTimestamp 100 100 le_rfl).2.1⟩

/-- Successor of a natural number modulo `I`, in the case where the
successor is not on a multiple of `I`. -/
lemma mod_succ_of_ne_zero (n I : Nat) (h : (n + 1) % I ≠ 0) :
    (n + 1) % I = n % I + 1 := by
  rcases le_or_lt I 1 with hI1 | hI2
  · interval_cases I
    · simp
    · simp [Nat.mod_one] at h
  · have h1 : 1 % I = 1 := Nat.mod_eq_of_lt hI2
    have hmod : n % I < I := Nat.mod_lt _ (by omega)
    rcases Nat.lt_or_ge (n % I + 1) I with hlt | hge
    · rw [Nat.add_mod, h1, Nat.mod_eq_of_lt hlt]
    · have heq : n % I + 1 = I := by omega
      exfalso
      apply h
      rw [Nat.add_mod, h1, heq, Nat.mod_self]

/-- The backward walk never goes below height 0 and never above its
start. -/
lemma walkBack_le (chain : Chain) (interval : Int) (limitBits : Nat) :
    ∀ h : Nat, walkBack chain interval limitBits h ≤ h := by
  intro h
  induction h with
  | zero => simp [walkBack]
  | succ n ih =>
    simp only [walkBack]
    split
    · exact le_trans ih (Nat.le_succ n)
    · exact le_rfl

/-- The backward walk stops at the chain start, at an
adjustment-boundary height, or at a block whose bits differ from the
limit bits. -/
lemma walkBack_stop (chain : Chain) (interval : Int) (limitBits : Nat) :
    ∀ h : Nat, walkBack chain interval limitBits h = 0
      ∨ ((walkBack chain interval limitBits h : Int)).tmod interval = 0
      ∨ chain.bits (walkBack chain interval limitBits h) ≠ limitBits := by
  intro h
  induction h with
  | zero => left; simp [walkBack]
  | succ n ih =>
    simp only [walkBack]
    split <;> rename_i hc
    · exact ih
    · by_cases ht : ((n : Int) + 1).tmod interval = 0
      · right; left
        push_cast
        exact ht
      · right; right
        intro hb
        exact hc ⟨ht, hb⟩

/-- Distance walked by the backward walk, bounded by the start height
modulo the adjustment interval. -/
lemma walkBack_dist (chain : Chain) (interval : Int) (limitBits : Nat) (I : Nat)
    (hI : (I : Int) = interval) :
    ∀ h : Nat, h - walkBack chain interval limitBits h ≤ h % I := by
  intro h
  induction h with
  | zero => simp [walkBack]
  | succ n ih =>
    simp only [walkBack]
    split <;> rename_i hc
    · have hmodne : (n + 1) % I ≠ 0 := by
        intro h0
        apply hc.1
        rw [← hI, show ((n : Int) + 1) = ((n + 1 : Nat) : Int) by push_cast; ring,
          ← Int.ofNat_tmod, h0]
        rfl
      have hsucc : (n + 1) % I = n % I + 1 := mod_succ_of_ne_zero n I hmodne
      have hle := walkBack_le chain interval limitBits n
      omega
    · omega

/-- Claim C8: with the min-difficulty rule active off a boundary, the
backward walk over min-difficulty-exception blocks is total and bounded:
it stops at the chain start, at a height that is a multiple of the
adjustment interval, or at the first block whose bits differ from the
power-limit bits, and it never walks a full adjustment interval back. -/
theorem legacyWalkBack_bound (chain : Chain) (interval : Int) (limitBits : Nat) (h : Nat)
    (hI : 0 < interval) :
    walkBack chain interval limitBits h ≤ h
    ∧ h - walkBack chain interval limitBits h < interval.toNat
    ∧ (walkBack chain interval limitBits h = 0
       ∨ ((walkBack chain interval limitBits h : Int)).tmod interval = 0
       ∨ chain.bits (walkBack chain interval limitBits h) ≠ limitBits) := by
  have hle := walkBack_le chain interval limitBits h
  have hstop := walkBack_stop chain interval limitBits h
  have hIc : ((interval.toNat : Int)) = interval := Int.toNat_of_nonneg hI.le
  have hd := walkBack_dist chain interval limitBits interval.toNat hIc h
  have hIpos : 0 < interval.toNat := by omega
  have hmodlt : h % interval.toNat < interval.toNat := Nat.mod_lt _ hIpos
  exact ⟨hle, by omega, hstop⟩

/-- Witness for claim C8 on a concrete chain at start height 10 with
interval 2016. -/
theorem legacyWalkBack_bound_witness :
    walkBack exactSpacingChain 2016 0x1d00ffff 10 ≤ 10
    ∧ 10 - walkBack exactSpacingChain 2016 0x1d00ffff 10 < (2016 : Int).toNat
    ∧ (walkBack exactSpacingChain 2016 0x1d00ffff 10 = 0
       ∨ ((walkBack exactSpacingChain 2016 0x1d00ffff 10 : Int)).tmod 2016 = 0
       ∨ exactSpacingChain.bits (walkBack exactSpacingChain 2016 0x1d00ffff 10) ≠ 0x1d00ffff) :=
  legacyWalkBack_bound exactSpacingChain 2016 0x1d00ffff 10 (by norm_num)

/-- Claim C2: in the moving-average regime the returned bits encode the
weighted average `sum / k` clamped exactly as the spec orders the three
bounds — power-limit ceiling first, then the easing ceiling
`prev * 6 / 5`, then the tightening floor `prev * 2 / 3` — and in
particular a raw average above the power limit yields the power limit
no matter how it compares with the easing ceiling. -/
theorem lwmaClampPrecedence (chain : Chain) (pblockTime : Int) (params : ConsensusParams)
    (hN : params.nLWMAAveragingWindow ≤ (chain.height : Int) + 1)
    (hSwitch : params.switchLWMAblock ≤ (chain.height : Int)) :
    GetNextWorkRequired chain pblockTime params
      = GetCompact (lwmaClampSpec params.powLimit (setCompactVal (chain.bits chain.height))
          (lwmaSumTarget chain params / (lwmaK params).toNat))
    ∧ (params.powLimit < lwmaSumTarget chain params / (lwmaK params).toNat →
        GetNextWorkRequired chain pblockTime params = GetCompact params.powLimit) := by
  have heq : GetNextWorkRequired chain pblockTime params
      = GetCompact (lwmaClampSpec params.powLimit (setCompactVal (chain.bits chain.height))
          (lwmaSumTarget chain params / (lwmaK params).toNat)) := by
    unfold GetNextWorkRequired
    rw [if_neg (not_lt.mpr hN), if_neg (not_lt.mpr hSwitch)]
    rfl
  refine ⟨heq, fun hgt => ?_⟩
  rw [heq]
  unfold lwmaClampSpec
  rw [if_pos hgt]

/-- Witness for claim C2 on a concrete moving-average-era chain. -/
theorem lwmaClampPrecedence_witness :
    GetNextWorkRequired lwmaChain 0 lwmaParams
      = GetCompact (lwmaClampSpec lwmaParams.powLimit
          (setCompactVal (lwmaChain.bits lwmaChain.height))
          (lwmaSumTarget lwmaChain lwmaParams / (lwmaK lwmaParams).toNat)) :=
  (lwmaClampPrecedence lwmaChain 0 lwmaParams (by decide) (by decide)).1

/-- Sequential clamping of the legacy retarget equals the interval clamp
`min M (max m a)`. -/
lemma ite_clamp_eq_min_max (M m a : Int) :
    (if (if a < m then m else a) > M then M else (if a < m then m else a))
      = min M (max m a) := by
  split_ifs <;> omega

/-- Final power-limit cap written as a `min`. -/
lemma ite_cap_eq_min (pl b : Nat) : (if b > pl then pl else b) = min pl b := by
  split_ifs <;> omega

/-- Shared closed form of the legacy recomputation: with retargeting
enabled, it encodes the base target scaled by the clamped timespan ratio
and capped at the power limit. -/
lemma calculateNextWorkRequired_eq (chain : Chain) (nFirstBlockTime : Int)
    (params : ConsensusParams) (hNoRet : params.fPowNoRetargeting = false) :
    CalculateNextWorkRequired chain nFirstBlockTime params
      = GetCompact (min params.powLimit
          (legacyBase chain params *
            (clampTimespanSpec params (chain.time chain.height - nFirstBlockTime)).toNat % W /
            params.nPowTargetTimespan.toNat)) := by
  simp only [CalculateNextWorkRequired]
  rw [hNoRet]
  simp only [Bool.false_eq_true, if_false]
  rw [ite_clamp_eq_min_max, ite_cap_eq_min]
  rfl

/-- Claim C7: with retargeting enabled, the legacy recomputation clamps
the actual timespan into `[timespan / 4, timespan * 4]` before scaling
the base target by `actual / timespan` with truncating division and
capping at the power limit; with a one-day timespan, an actual timespan
of one second is clamped to `86400 / 4 = 21600`, not used raw. -/
theorem legacyTimespanClamp (chain : Chain) (nFirstBlockTime : Int) (params : ConsensusParams)
    (hNoRet : params.fPowNoRetargeting = false) :
    CalculateNextWorkRequired chain nFirstBlockTime params
      = GetCompact (min params.powLimit
          (legacyBase chain params *
            (clampTimespanSpec params (chain.time chain.height - nFirstBlockTime)).toNat % W /
            params.nPowTargetTimespan.toNat))
    ∧ (params.nPowTargetTimespan = 86400 → chain.time chain.height - nFirstBlockTime = 1 →
        CalculateNextWorkRequired chain nFirstBlockTime params
          = GetCompact (min params.powLimit
              (legacyBase chain params * 21600 % W / 86400))) := by
  have heq := calculateNextWorkRequired_eq chain nFirstBlockTime params hNoRet
  refine ⟨heq, fun hts h1 => ?_⟩
  rw [heq]
  simp only [clampTimespanSpec]
  rw [hts, h1]
  norm_num [show Int.tdiv 86400 4 = 21600 from by decide,
    show Int.toNat 21600 = 21600 from by decide, show Int.toNat 86400 = 86400 from by decide]

/-- Witness for claim C7: a one-second actual timespan against a one-day
target timespan on a concrete chain. -/
theorem legacyTimespanClamp_witness :
    CalculateNextWorkRequired unitSpacingChain 4 oneDayParams
      = GetCompact (min oneDayParams.powLimit
          (legacyBase unitSpacingChain oneDayParams * 21600 % W / 86400)) :=
  (legacyTimespanClamp unitSpacingChain 4 oneDayParams rfl).2 rfl (by decide)

/-- Zero has binary length zero at any fuel. -/
lemma bitLenAux_zero (fuel : Nat) : bitLenAux fuel 0 = 0 := by
  cases fuel <;> simp [bitLenAux]

/-- Positive numbers have positive binary length when the fuel
suffices. -/
lemma bitLenAux_pos (fuel n : Nat) (hn : n ≠ 0) (hfuel : n < 2 ^ fuel) :
    0 < bitLenAux fuel n := by
  cases fuel with
  | zero => simp at hfuel; omega
  | succ f =>
    simp only [bitLenAux, if_neg hn]
    omega

/-- Correctness of the fuel-driven binary length: the number is below
`2 ^ length` and, when nonzero, at least `2 ^ (length - 1)`. -/
lemma bitLenAux_spec (fuel : Nat) : ∀ n : Nat, n < 2 ^ fuel →
    n < 2 ^ bitLenAux fuel n ∧ (n ≠ 0 → 2 ^ (bitLenAux fuel n - 1) ≤ n) := by
  induction fuel with
  | zero =>
    intro n hn
    interval_cases n
    simp [bitLenAux]
  | succ f ih =>
    intro n hn
    by_cases h0 : n = 0
    · subst h0
      simp [bitLenAux_zero]
    · have hhalf : n / 2 < 2 ^ f := by
        rw [pow_succ] at hn
        omega
      obtain ⟨ih1, ih2⟩ := ih (n / 2) hhalf
      simp only [bitLenAux, if_neg h0]
      constructor
      · rw [pow_succ]
        omega
      · intro _
        simp only [Nat.add_sub_cancel]
        by_cases hh0 : n / 2 = 0
        · rw [hh0, bitLenAux_zero]
          omega

        · have hlow := ih2 hh0
          have hbpos : 0 < bitLenAux f (n / 2) := bitLenAux_pos f (n / 2) hh0 hhalf
          obtain ⟨c, hc⟩ : ∃ c, bitLenAux f (n / 2) = c + 1 :=
            ⟨bitLenAux f (n / 2) - 1, by omega⟩
          rw [hc] at hlow ⊢
          simp only [Nat.add_sub_cancel] at hlow
          rw [pow_succ]
          omega

/-- Every natural number is below two to its binary length. -/
lemma bitLen_lt (n : Nat) : n < 2 ^ bitLen n :=
  (bitLenAux_spec (n + 1) n (lt_of_lt_of_le (Nat.lt_two_pow n)
    (Nat.pow_le_pow_right (by norm_num) (Nat.le_succ n)))).1

/-- A nonzero number is at least two to its binary length less one. -/
lemma bitLen_ge (n : Nat) (h : n ≠ 0) : 2 ^ (bitLen n - 1) ≤ n :=
  (bitLenAux_spec (n + 1) n (lt_of_lt_of_le (Nat.lt_two_pow n)
    (Nat.pow_le_pow_right (by norm_num) (Nat.le_succ n)))).2 h

/-- The binary length is the least exponent bounding the number. -/
lemma bitLen_le_iff (n k : Nat) : bitLen n ≤ k ↔ n < 2 ^ k := by
  constructor
  · intro h
    exact lt_of_lt_of_le (bitLen_lt n) (Nat.pow_le_pow_right (by norm_num) h)
  · intro h
    by_cases h0 : n = 0
    · subst h0
      simp [bitLen, bitLenAux]
    · by_contra hk
      push_neg at hk
      have h1 : 2 ^ k ≤ 2 ^ (bitLen n - 1) :=
        Nat.pow_le_pow_right (by norm_num) (by omega)
      have h2 := bitLen_ge n h0
      omega

/-- Decoding a compact word assembled from a mantissa below `2 ^ 24` and
an exponent byte. -/
lemma setCompactVal_encode (c nSize : Nat) (hc : c < 2 ^ 24) :
    setCompactVal (c + nSize * 2 ^ 24)
      = if nSize ≤ 3 then c % 2 ^ 23 / 2 ^ (8 * (3 - nSize))
        else c % 2 ^ 23 * 2 ^ (8 * (nSize - 3)) % W := by
  have hdiv : (c + nSize * 2 ^ 24) / 2 ^ 24 = nSize := by
    rw [Nat.add_mul_div_right _ _ (by norm_num), Nat.div_eq_of_lt hc]
    omega
  have hsplit : nSize * 2 ^ 24 = 2 ^ 23 * (nSize * 2) := by ring
  have hmod : (c + nSize * 2 ^ 24) % 2 ^ 23 = c % 2 ^ 23 := by
    rw [hsplit, Nat.add_mul_mod_self_left]
  simp only [setCompactVal, hdiv, hmod]

/-- Round-trip structure of the compact codec: encode-then-decode
truncates the value at `rtShift` low bits, the shift is a multiple of 8,
and a nonzero shift forces the value to be at least
`2 ^ (rtShift + 15)`. -/
lemma roundTrip_eq (v : Nat) (hv : v < W) :
    setCompactVal (GetCompact v) = v / 2 ^ rtShift v * 2 ^ rtShift v
    ∧ (rtShift v = 0 ∨ 2 ^ (rtShift v + 15) ≤ v)
    ∧ rtShift v % 8 = 0 := by
  have hL256 : bitLen v ≤ 256 := (bitLen_le_iff v 256).mpr hv
  have hLlt := bitLen_lt v
  by_cases hns3 : (bitLen v + 7) / 8 ≤ 3
  · -- small sizes: the mantissa is the value shifted up
    set nS := (bitLen v + 7) / 8 with hnS
    have hvlt : v < 2 ^ (8 * nS) :=
      lt_of_lt_of_le hLlt (Nat.pow_le_pow_right (by norm_num) (by omega))
    have hsplit24 : (2 : Nat) ^ 24 = 2 ^ (8 * nS) * 2 ^ (8 * (3 - nS)) := by
      rw [← pow_add]
      congr 1
      omega
    have hclt : v * 2 ^ (8 * (3 - nS)) < 2 ^ 24 := by
      rw [hsplit24]
      exact Nat.mul_lt_mul_of_lt_of_le hvlt le_rfl (by positivity)
    have hGC : GetCompact v
        = if 2 ^ 23 ≤ v * 2 ^ (8 * (3 - nS))
          then v * 2 ^ (8 * (3 - nS)) / 2 ^ 8 + (nS + 1) * 2 ^ 24
          else v * 2 ^ (8 * (3 - nS)) + nS * 2 ^ 24 := by
      simp only [GetCompact, ← hnS, if_pos hns3]
    have hRS : rtShift v
        = 8 * ((if 2 ^ 23 ≤ v * 2 ^ (8 * (3 - nS)) then nS + 1 else nS) - 3) := by
      simp only [rtShift, ← hnS, if_pos hns3]
    by_cases hc23 : 2 ^ 23 ≤ v * 2 ^ (8 * (3 - nS))
    · rw [if_pos hc23] at hGC
      rw [if_pos hc23] at hRS
      by_cases hns2 : nS ≤ 2
      · -- the dropped byte is part of the pad, value survives exactly
        have hpad : 8 * (3 - nS) = 8 * (2 - nS) + 8 := by omega
        have hcdiv : v * 2 ^ (8 * (3 - nS)) / 2 ^ 8 = v * 2 ^ (8 * (2 - nS)) := by
          rw [hpad, pow_add, ← mul_assoc]
          exact Nat.mul_div_cancel _ (by positivity)
        have hc8lt : v * 2 ^ (8 * (3 - nS)) / 2 ^ 8 < 2 ^ 24 :=
          lt_of_le_of_lt (Nat.div_le_self _ _) hclt
        rw [hGC, setCompactVal_encode _ _ hc8lt, if_pos (by omega : nS + 1 ≤ 3)]
        have hrs0 : rtShift v = 0 := by
          rw [hRS]
          omega
        rw [hrs0]
        have hc8small : v * 2 ^ (8 * (3 - nS)) / 2 ^ 8 < 2 ^ 23 := by
          rw [hcdiv]
          calc v * 2 ^ (8 * (2 - nS)) < 2 ^ (8 * nS) * 2 ^ (8 * (2 - nS)) :=
            Nat.mul_lt_mul_of_lt_of_le hvlt le_rfl (by positivity)
          _ ≤ 2 ^ 23 := by
            rw [← pow_add]
            exact Nat.pow_le_pow_right (by norm_num) (by omega)
        rw [Nat.mod_eq_of_lt hc8small, hcdiv]
        have hcancel : 8 * (3 - (nS + 1)) = 8 * (2 - nS) := by omega
        rw [hcancel, Nat.mul_div_cancel _ (by positivity)]
        simp
      · -- nS = 3: one real byte is dropped
        have hns3eq : nS = 3 := by omega
        have hc0 : 8 * (3 - nS) = 0 := by omega
        rw [hc0, pow_zero, mul_one] at hGC hc23 hclt
        have hc8lt : v / 2 ^ 8 < 2 ^ 24 := lt_of_le_of_lt (Nat.div_le_self _ _) hclt
        rw [hGC, setCompactVal_encode _ _ hc8lt, if_neg (by omega : ¬ nS + 1 ≤ 3)]
        have hrs8 : rtShift v = 8 := by
          rw [hRS]
          omega
        rw [hrs8]
        have hvdivlt : v / 2 ^ 8 < 2 ^ 16 := by
          rw [Nat.div_lt_iff_lt_mul (by positivity)]
          calc v < 2 ^ (8 * nS) := hvlt
          _ = 2 ^ 16 * 2 ^ 8 := by
            rw [hns3eq]
            norm_num
        have hmodsmall : v / 2 ^ 8 % 2 ^ 23 = v / 2 ^ 8 :=
          Nat.mod_eq_of_lt (lt_trans hvdivlt (by norm_num))
        rw [hmodsmall]
        have hexp : 8 * (nS + 1 - 3) = 8 := by omega
        rw [hexp]
        have hlt : v / 2 ^ 8 * 2 ^ 8 < W :=
          lt_of_le_of_lt (Nat.div_mul_le_self _ _) hv
        rw [Nat.mod_eq_of_lt hlt]
        refine ⟨rfl, Or.inr ?_, by norm_num⟩
        calc (2 : Nat) ^ (8 + 15) = 2 ^ 23 := by norm_num
        _ ≤ v := hc23
    · rw [if_neg hc23] at hGC
      rw [if_neg hc23] at hRS
      rw [hGC, setCompactVal_encode _ _ hclt, if_pos hns3]
      have hrs0 : rtShift v = 0 := by
        rw [hRS]
        omega
      rw [hrs0]
      have hcsmall : v * 2 ^ (8 * (3 - nS)) % 2 ^ 23 = v * 2 ^ (8 * (3 - nS)) :=
        Nat.mod_eq_of_lt (by omega)
      rw [hcsmall, Nat.mul_div_cancel _ (by positivity)]
      simp
  · -- large sizes: the mantissa is the top three (or fewer) bytes
    push_neg at hns3
    set nS := (bitLen v + 7) / 8 with hnS
    have hv0 : v ≠ 0 := by
      intro h0
      rw [h0] at hnS
      simp [bitLen, bitLenAux] at hnS
      omega
    have hLge : 8 * nS - 7 ≤ bitLen v := by omega
    have hvlt : v < 2 ^ (8 * nS) :=
      lt_of_lt_of_le hLlt (Nat.pow_le_pow_right (by norm_num) (by omega))
    have hvge : 2 ^ (8 * nS - 8) ≤ v :=
      le_trans (Nat.pow_le_pow_right (by norm_num) (by omega)) (bitLen_ge v hv0)
    have hsplit : (2 : Nat) ^ (8 * nS) = 2 ^ 24 * 2 ^ (8 * (nS - 3)) := by
      rw [← pow_add]
      congr 1
      omega
    have hclt : v / 2 ^ (8 * (nS - 3)) < 2 ^ 24 := by
      rw [Nat.div_lt_iff_lt_mul (by positivity), ← hsplit]
      exact hvlt
    have hsplit16 : (2 : Nat) ^ (8 * nS - 8) = 2 ^ 16 * 2 ^ (8 * (nS - 3)) := by
      rw [← pow_add]
      congr 1
      omega
    have hcge : 2 ^ 16 ≤ v / 2 ^ (8 * (nS - 3)) := by
      rw [Nat.le_div_iff_mul_le (by positivity), ← hsplit16]
      exact hvge
    have hGC : GetCompact v
        = if 2 ^ 23 ≤ v / 2 ^ (8 * (nS - 3))
          then v / 2 ^ (8 * (nS - 3)) / 2 ^ 8 + (nS + 1) * 2 ^ 24
          else v / 2 ^ (8 * (nS - 3)) + nS * 2 ^ 24 := by
      simp only [GetCompact, ← hnS, if_neg (by omega : ¬ nS ≤ 3)]
    have hRS : rtShift v
        = 8 * ((if 2 ^ 23 ≤ v / 2 ^ (8 * (nS - 3)) then nS + 1 else nS) - 3) := by
      simp only [rtShift, ← hnS, if_neg (by omega : ¬ nS ≤ 3)]
    by_cases hc23 : 2 ^ 23 ≤ v / 2 ^ (8 * (nS - 3))
    · rw [if_pos hc23] at hGC
      rw [if_pos hc23] at hRS
      have hc8lt : v / 2 ^ (8 * (nS - 3)) / 2 ^ 8 < 2 ^ 24 :=
        lt_of_le_of_lt (Nat.div_le_self _ _) hclt
      rw [hGC, setCompactVal_encode _ _ hc8lt, if_neg (by omega : ¬ nS + 1 ≤ 3)]
      have hrs : rtShift v = 8 * (nS - 3) + 8 := by
        rw [hRS]
        omega
      have hdd : v / 2 ^ (8 * (nS - 3)) / 2 ^ 8 = v / 2 ^ (8 * (nS - 3) + 8) := by
        rw [Nat.div_div_eq_div_mul, ← pow_add]
      have hvdivlt : v / 2 ^ (8 * (nS - 3) + 8) < 2 ^ 16 := by
        rw [Nat.div_lt_iff_lt_mul (by positivity)]
        calc v < 2 ^ (8 * nS) := hvlt
        _ ≤ 2 ^ 16 * 2 ^ (8 * (nS - 3) + 8) := by
          rw [← pow_add]
          exact Nat.pow_le_pow_right (by norm_num) (by omega)
      have hmodsmall : v / 2 ^ (8 * (nS - 3)) / 2 ^ 8 % 2 ^ 23
          = v / 2 ^ (8 * (nS - 3) + 8) := by
        rw [hdd]
        exact Nat.mod_eq_of_lt (lt_trans hvdivlt (by norm_num))
      rw [hmodsmall]
      have hexp : 8 * (nS + 1 - 3) = 8 * (nS - 3) + 8 := by omega
      rw [hexp]
      have hlt : v / 2 ^ (8 * (nS - 3) + 8) * 2 ^ (8 * (nS - 3) + 8) < W :=
        lt_of_le_of_lt (Nat.div_mul_le_self _ _) hv
      rw [Nat.mod_eq_of_lt hlt, hrs]
      refine ⟨rfl, Or.inr ?_, by omega⟩
      have : (2 : Nat) ^ (8 * (nS - 3) + 8 + 15) = 2 ^ 23 * 2 ^ (8 * (nS - 3)) := by
        rw [← pow_add]
        congr 1
        omega
      rw [this]
      exact (Nat.le_div_iff_mul_le (by positivity)).mp hc23
    · rw [if_neg hc23] at hGC
      rw [if_neg hc23] at hRS
      rw [hGC, setCompactVal_encode _ _ hclt, if_neg (by omega : ¬ nS ≤ 3)]
      have hrs : rtShift v = 8 * (nS - 3) := by
        rw [hRS]
      have hmodsmall : v / 2 ^ (8 * (nS - 3)) % 2 ^ 23 = v / 2 ^ (8 * (nS - 3)) :=
        Nat.mod_eq_of_lt (by omega)
      rw [hmodsmall]
      have hlt : v / 2 ^ (8 * (nS - 3)) * 2 ^ (8 * (nS - 3)) < W :=
        lt_of_le_of_lt (Nat.div_mul_le_self _ _) hv
      rw [Nat.mod_eq_of_lt hlt, hrs]
      refine ⟨rfl, Or.inr ?_, by omega⟩
      have : (2 : Nat) ^ (8 * (nS - 3) + 15) ≤ 2 ^ (8 * nS - 8) := by
        exact Nat.pow_le_pow_right (by norm_num) (by omega)
      exact le_trans this hvge

/-- The compact round trip never increases a value. -/
lemma setCompactVal_getCompact_le (v : Nat) (hv : v < W) :
    setCompactVal (GetCompact v) ≤ v := by
  rw [(roundTrip_eq v hv).1]
  exact Nat.div_mul_le_self _ _

/-- The compact round trip of `v` dominates every compactly
representable value below `v`. -/
lemma le_setCompactVal_getCompact (m j v : Nat) (hm : m < 2 ^ 23)
    (hle : m * 2 ^ (8 * j) ≤ v) (hv : v < W) :
    m * 2 ^ (8 * j) ≤ setCompactVal (GetCompact v) := by
  obtain ⟨h1, h2, h3⟩ := roundTrip_eq v hv
  rw [h1]
  rcases h2 with h0 | hbig
  · rw [h0]
    simpa using hle
  · rcases le_or_lt (rtShift v) (8 * j) with hσle | hσgt
    · have hsplitm : m * 2 ^ (8 * j) = m * 2 ^ (8 * j - rtShift v) * 2 ^ rtShift v := by
        rw [mul_assoc, ← pow_add]
        congr 2
        omega
      rw [hsplitm] at hle ⊢
      exact Nat.mul_le_mul_right _ ((Nat.le_div_iff_mul_le (by positivity)).mpr hle)
    · have h8 : 8 * j + 8 ≤ rtShift v := by omega
      have hlt : m * 2 ^ (8 * j) < 2 ^ (rtShift v + 15) :=
        calc m * 2 ^ (8 * j) < 2 ^ 23 * 2 ^ (8 * j) :=
          (Nat.mul_lt_mul_right (by positivity)).mpr hm
        _ = 2 ^ (23 + 8 * j) := by rw [pow_add]
        _ ≤ 2 ^ (rtShift v + 15) := Nat.pow_le_pow_right (by norm_num) (by omega)
      have hdiv15 : 2 ^ 15 ≤ v / 2 ^ rtShift v := by
        rw [Nat.le_div_iff_mul_le (by positivity), ← pow_add]
        exact le_trans (Nat.pow_le_pow_right (by norm_num) (by omega)) hbig
      have hsplit15 : (2 : Nat) ^ (rtShift v + 15) = 2 ^ 15 * 2 ^ rtShift v := by
        rw [pow_add, Nat.mul_comm]
      have hge : 2 ^ (rtShift v + 15) ≤ v / 2 ^ rtShift v * 2 ^ rtShift v := by
        rw [hsplit15]
        exact Nat.mul_le_mul_right _ hdiv15
      omega

/-- Every decoded compact value is a mantissa below `2 ^ 23` times a
byte-aligned power of two. -/
lemma setCompactVal_repr (b : Nat) :
    ∃ m j, m < 2 ^ 23 ∧ setCompactVal b = m * 2 ^ (8 * j) := by
  simp only [setCompactVal]
  split <;> rename_i h
  · refine ⟨b % 2 ^ 23 / 2 ^ (8 * (3 - b / 2 ^ 24)), 0, ?_, ?_⟩
    · exact lt_of_le_of_lt (Nat.div_le_self _ _) (Nat.mod_lt _ (by norm_num))
    · simp
  · rcases le_or_lt 256 (8 * (b / 2 ^ 24 - 3)) with hbig | hsmall
    · refine ⟨0, 0, by norm_num, ?_⟩
      have hdvd : W ∣ b % 2 ^ 23 * 2 ^ (8 * (b / 2 ^ 24 - 3)) := by
        apply Dvd.dvd.mul_left
        exact pow_dvd_pow 2 hbig
      rw [Nat.mod_eq_zero_of_dvd hdvd]
      simp
    · refine ⟨b % 2 ^ 23 % 2 ^ (256 - 8 * (b / 2 ^ 24 - 3)), b / 2 ^ 24 - 3, ?_, ?_⟩
      · exact lt_of_le_of_lt (Nat.mod_le _ _) (Nat.mod_lt _ (by norm_num))
      · have hW : W = 2 ^ (256 - 8 * (b / 2 ^ 24 - 3)) * 2 ^ (8 * (b / 2 ^ 24 - 3)) := by
          have hexp : 256 - 8 * (b / 2 ^ 24 - 3) + 8 * (b / 2 ^ 24 - 3) = 256 := by omega
          rw [← pow_add, hexp]
          rfl
        rw [hW, Nat.mul_mod_mul_right]

/-- Shared boundary-height characterization of the transition validator:
acceptance is exactly containment of the observed decoded target between
the recomputed extreme bounds. -/
lemma permittedTransition_boundary_iff (params : ConsensusParams) (height : Int)
    (old_nbits new_nbits : Nat)
    (hFlag : params.fPowAllowMinDifficultyBlocks = false)
    (hB : height.tmod (DifficultyAdjustmentInterval params) = 0) :
    PermittedDifficultyTransition params height old_nbits new_nbits = true
      ↔ (minimumNewTarget params old_nbits ≤ setCompactVal new_nbits
         ∧ setCompactVal new_nbits ≤ maximumNewTarget params old_nbits) := by
  simp only [PermittedDifficultyTransition, maximumNewTarget, minimumNewTarget]
  rw [hFlag]
  simp only [Bool.false_eq_true, if_false]
  rw [if_pos hB, ite_cap_eq_min, ite_cap_eq_min]
  split_ifs with h1 h2 <;> simp only [Bool.false_eq_true, false_iff, true_iff] <;> omega

/-- Claim C4: with the min-difficulty flag clear, at an
adjustment-boundary height the transition validator accepts exactly when
the decoded observed target lies between the minimum and maximum bounds,
each obtained by scaling the decoded old target by the extreme timespan
ratios, clamping to the power limit, and round-tripping through the
compact codec. -/
theorem permittedTransition_bounds (params : ConsensusParams) (height : Int)
    (old_nbits new_nbits : Nat)
    (hFlag : params.fPowAllowMinDifficultyBlocks = false)
    (hB : height.tmod (DifficultyAdjustmentInterval params) = 0) :
    PermittedDifficultyTransition params height old_nbits new_nbits = true
      ↔ (minimumNewTarget params old_nbits ≤ setCompactVal new_nbits
         ∧ setCompactVal new_nbits ≤ maximumNewTarget params old_nbits) :=
  permittedTransition_boundary_iff params height old_nbits new_nbits hFlag hB

/-- Witness for claim C4: the mainnet genesis bits are accepted
unchanged at boundary height 2016. -/
theorem permittedTransition_bounds_witness :
    PermittedDifficultyTransition legacyParams 2016 0x1d00ffff 0x1d00ffff = true :=
  (permittedTransition_bounds legacyParams 2016 0x1d00ffff 0x1d00ffff rfl
    (by decide)).mpr (by decide)

/-- Counterexample to claim C3: on a legacy-era chain of 2016 blocks
mined with constant spacing exactly equal to the 600-second target
spacing at constant bits `0x1d00ffff`, the next required bits are
`0x1d00ffde`, not the previous bits: the measured timespan spans only
`interval - 1` gaps, so perfectly-on-schedule timing still eases the
target by a factor `2015 / 2016`. -/
theorem exactSpacing_changes_bits :
    GetNextWorkRequired exactSpacingChain 0 legacyParams = 0x1d00ffde
    ∧ GetNextWorkRequired exactSpacingChain 0 legacyParams
        ≠ exactSpacingChain.bits exactSpacingChain.height := by
  constructor
  · decide
  · decide

/-- Claim C3 amended: on a legacy-era chain whose measured timespan over
the adjustment window (which spans `interval - 1` gaps — constant
spacing `targetTimespan / (interval - 1)`, not the target spacing)
equals the target timespan exactly, with constant window bits that are
normalized, within the power limit, and small enough that the scaling
does not overflow 256 bits, `GetNextWorkRequired` returns the previous
bits unchanged. -/
theorem legacyExactTimespan_keepsBits (chain : Chain) (pblockTime : Int)
    (params : ConsensusParams)
    (hN : params.nLWMAAveragingWindow ≤ (chain.height : Int) + 1)
    (hSwitch : (chain.height : Int) < params.switchLWMAblock)
    (hB : ((chain.height : Int) + 1).tmod (DifficultyAdjustmentInterval params) = 0)
    (hNoRet : params.fPowNoRetargeting = false)
    (hts : 0 < params.nPowTargetTimespan)
    (hEqBits : chain.bits (chain.height - ((DifficultyAdjustmentInterval params).toNat - 1))
        = chain.bits chain.height)
    (hTime : chain.time chain.height
        - chain.time (chain.height - ((DifficultyAdjustmentInterval params).toNat - 1))
        = params.nPowTargetTimespan)
    (hOv : setCompactVal (chain.bits chain.height) * params.nPowTargetTimespan.toNat < W)
    (hCap : setCompactVal (chain.bits chain.height) ≤ params.powLimit)
    (hNorm : GetCompact (setCompactVal (chain.bits chain.height)) = chain.bits chain.height) :
    GetNextWorkRequired chain pblockTime params = chain.bits chain.height := by
  unfold GetNextWorkRequired
  rw [if_neg (not_lt.mpr hN), if_pos hSwitch]
  simp only [BitcoinGetNextWorkRequired]
  rw [if_neg (not_not_intro hB)]
  rw [calculateNextWorkRequired_eq _ _ _ hNoRet, hTime]
  have h4 : params.nPowTargetTimespan.tdiv 4 ≤ params.nPowTargetTimespan := by
    rw [Int.tdiv_eq_ediv hts.le (by norm_num)]
    exact Int.ediv_le_self _ hts.le
  have hclamp : clampTimespanSpec params params.nPowTargetTimespan
      = params.nPowTargetTimespan := by
    unfold clampTimespanSpec
    rw [max_eq_right h4, min_eq_right (by omega : params.nPowTargetTimespan
      ≤ params.nPowTargetTimespan * 4)]
  rw [hclamp]
  have hbase : legacyBase chain params = setCompactVal (chain.bits chain.height) := by
    unfold legacyBase
    split_ifs
    · rw [hEqBits]
    · rfl
  rw [hbase]
  have htsN : 0 < params.nPowTargetTimespan.toNat := by omega
  rw [Nat.mod_eq_of_lt hOv, Nat.mul_div_cancel _ htsN, min_eq_right hCap]
  exact hNorm

/-- Witness for the amended claim C3: interval 4, constant spacing 800
with target timespan 2400, so the measured timespan over the 3 gaps of
the window equals the target timespan and the bits are returned
unchanged. -/
theorem legacyExactTimespan_keepsBits_witness :
    GetNextWorkRequired intervalFourChain 0 intervalFourParams
      = intervalFourChain.bits intervalFourChain.height :=
  legacyExactTimespan_keepsBits intervalFourChain 0 intervalFourParams
    (by decide) (by decide) (by decide) rfl (by decide) (by decide) (by decide)
    (by decide) (by decide) (by decide)

/-- Counterexample to claim C5: with the min-difficulty flag clear, at
boundary height 4 with interval 4, the unchanged bits `0x01020000`
(decoding to 2, above the power limit 1) are rejected, so unchanged bits
are not accepted at every height. -/
theorem permittedTransition_rejects_unchanged_at_boundary :
    PermittedDifficultyTransition smallLimitParams 4 0x01020000 0x01020000 = false := by
  decide

/-- Claim C5 amended: with the min-difficulty flag clear the validator
rejects every bits change at a non-boundary height and accepts unchanged
bits at every non-boundary height; at boundary heights it accepts
unchanged bits provided the decoded old target is at most the power
limit and the timespan scaling stays below 256 bits (unchanged bits
decoding above the power limit can be rejected there). -/
theorem permittedTransition_unchanged (params : ConsensusParams)
    (hFlag : params.fPowAllowMinDifficultyBlocks = false) :
    (∀ (height : Int) (old_nbits new_nbits : Nat),
        height.tmod (DifficultyAdjustmentInterval params) ≠ 0 → old_nbits ≠ new_nbits →
        PermittedDifficultyTransition params height old_nbits new_nbits = false)
    ∧ (∀ (height : Int) (old_nbits : Nat),
        height.tmod (DifficultyAdjustmentInterval params) ≠ 0 →
        PermittedDifficultyTransition params height old_nbits old_nbits = true)
    ∧ (∀ (height : Int) (old_nbits : Nat),
        height.tmod (DifficultyAdjustmentInterval params) = 0 →
        0 < params.nPowTargetTimespan →
        params.powLimit < W →
        setCompactVal old_nbits ≤ params.powLimit →
        setCompactVal old_nbits * (params.nPowTargetTimespan * 4).toNat < W →
        PermittedDifficultyTransition params height old_nbits old_nbits = true) := by
  refine ⟨?_, ?_, ?_⟩
  · intro height o n hne hdiff
    simp only [PermittedDifficultyTransition]
    rw [hFlag]
    simp only [Bool.false_eq_true, if_false]
    rw [if_neg hne, if_pos hdiff]
  · intro height o hne
    simp only [PermittedDifficultyTransition]
    rw [hFlag]
    simp only [Bool.false_eq_true, if_false]
    rw [if_neg hne, if_neg (by simp)]
  · intro height o hB hts hplW hCap hOv
    have h4t : (params.nPowTargetTimespan * 4).toNat = 4 * params.nPowTargetTimespan.toNat := by
      omega
    have hq : (params.nPowTargetTimespan.tdiv 4).toNat = params.nPowTargetTimespan.toNat / 4 := by
      rw [Int.tdiv_eq_ediv hts.le (by norm_num)]
      omega
    rw [h4t] at hOv
    set O := setCompactVal o with hO
    set t := params.nPowTargetTimespan.toNat with ht
    have ht0 : 0 < t := by omega
    have hlargest : O * (4 * t) % W / t = 4 * O := by
      rw [Nat.mod_eq_of_lt hOv, show O * (4 * t) = 4 * O * t by ring]
      exact Nat.mul_div_cancel _ ht0
    have hsmle : O * (t / 4) ≤ O * (4 * t) := Nat.mul_le_mul_left _ (by omega)
    have hsmallest_le : O * (t / 4) % W / t ≤ O := by
      rw [Nat.mod_eq_of_lt (lt_of_le_of_lt hsmle hOv)]
      calc O * (t / 4) / t ≤ O * t / t :=
        Nat.div_le_div_right (Nat.mul_le_mul_left _ (by omega))
      _ = O := Nat.mul_div_cancel _ ht0
    obtain ⟨m, j, hm, hrepr⟩ := setCompactVal_repr o
    have hreprO : O = m * 2 ^ (8 * j) := hrepr
    have hmaxO : O ≤ maximumNewTarget params o := by
      unfold maximumNewTarget
      rw [← hO, ← ht, h4t, hlargest]
      rcases le_or_lt (4 * O) params.powLimit with hle | hgt
      · rw [min_eq_right hle]
        calc O = m * 2 ^ (8 * j) := hreprO
        _ ≤ _ := le_setCompactVal_getCompact m j (4 * O) hm (by omega)
          (lt_of_le_of_lt hle hplW)
      · rw [min_eq_left hgt.le]
        calc O = m * 2 ^ (8 * j) := hreprO
        _ ≤ _ := le_setCompactVal_getCompact m j params.powLimit hm
          (hreprO ▸ hCap) hplW
    have hsmpl : O * (t / 4) % W / t ≤ params.powLimit := le_trans hsmallest_le hCap
    have hminO : minimumNewTarget params o ≤ O := by
      unfold minimumNewTarget
      rw [← hO, ← ht, hq, min_eq_right hsmpl]
      exact le_trans (setCompactVal_getCompact_le _ (lt_of_le_of_lt hsmpl hplW)) hsmallest_le
    exact (permittedTransition_boundary_iff params height o o hFlag hB).mpr ⟨hminO, hmaxO⟩

/-- Witness for the amended claim C5: mainnet-style parameters accept
the unchanged genesis bits at boundary height 4032 and at non-boundary
height 4033, and reject a change at height 4033. -/
theorem permittedTransition_unchanged_witness :
    PermittedDifficultyTransition legacyParams 4033 0x1d00ffff 0x1c00ffff = false
    ∧ PermittedDifficultyTransition legacyParams 4033 0x1d00ffff 0x1d00ffff = true
    ∧ PermittedDifficultyTransition legacyParams 4032 0x1d00ffff 0x1d00ffff = true :=
  ⟨(permittedTransition_unchanged legacyParams rfl).1 4033 0x1d00ffff 0x1c00ffff
      (by decide) (by decide),
   (permittedTransition_unchanged legacyParams rfl).2.1 4033 0x1d00ffff (by decide),
   (permittedTransition_unchanged legacyParams rfl).2.2 4032 0x1d00ffff (by decide)
      (by decide) (by decide) (by decide) (by decide)⟩

end Atcoin
